import Mathlib

/-!
Term_Emulator: the output path of `TerminalEmulator` (src/output.cpp).

A shallow embedding of `readFromMaster`, `parseAnsiSequences`, `applyAnsiCodes`,
`ansiColor` and `sendInput`, together with the parts of the Qt text classes these
functions rely on (`QString`, `QTextCharFormat`, `QTextCursor`).

Conventions of the embedding:

* A `QString` that reaches the parser is decoded text, hence well-formed UTF-16; it is
  represented by its sequence of Unicode scalar values (`List Char`).  Positions inside
  the parser count characters.  `QString.size` is the number of UTF-16 code units, which
  is what the C++ `size()` returns.
* Bytes are natural numbers below 256.
* The calls a handler makes on the display and on the master descriptor are returned as
  a list of `Effect`s, in program order.
-/

namespace TermEmulator

/-! ## Qt value types -/

/-- A `QString`, as its sequence of characters. -/
abbrev QString := List Char

/-- Number of UTF-16 code units one character occupies inside a `QString`. -/
def utf16Units (c : Char) : Nat := if c.toNat < 65536 then 1 else 2

/-- The C++ `QString::size()`: the number of UTF-16 code units. -/
def QString.size (s : QString) : Nat := (s.map utf16Units).sum

/-- A `QColor`: either the invalid colour built by `QColor()`, or an RGB triple. -/
inductive QColor where
  | invalid
  | rgb (r g b : Nat)
  deriving DecidableEq, Repr

/-- A `QBrush`: `QBrush()` paints nothing (`Qt::NoBrush`), `QBrush(color)` is solid. -/
inductive QBrush where
  | noBrush
  | solid (color : QColor)
  deriving DecidableEq, Repr

/-- The two font weights the program uses, `QFont::Normal` and `QFont::Bold`. -/
inductive FontWeight where
  | normal
  | bold
  deriving DecidableEq, Repr

/-- The three attributes of a `QTextCharFormat` that the program reads or writes.
`fontWeight` is what the getter `fontWeight()` returns (`QFont::Normal` when unset). -/
structure QTextCharFormat where
  fontWeight : FontWeight
  foreground : QBrush
  background : QBrush
  deriving DecidableEq, Repr

/-- The default-constructed `QTextCharFormat()`. -/
def QTextCharFormat.default : QTextCharFormat :=
  { fontWeight := FontWeight.normal, foreground := QBrush.noBrush, background := QBrush.noBrush }

/-! ## `ansiColor` (output.cpp 157-174) -/

/-- The static array `ansiColors[8]`. -/
def ansiColors : List QColor :=
  [ QColor.rgb 0 0 0,        -- Black
    QColor.rgb 128 0 0,      -- Red
    QColor.rgb 0 128 0,      -- Green
    QColor.rgb 128 128 0,    -- Yellow
    QColor.rgb 0 0 128,      -- Blue
    QColor.rgb 128 0 128,    -- Magenta
    QColor.rgb 0 128 128,    -- Cyan
    QColor.rgb 192 192 192 ] -- White

/-- The method `TerminalEmulator::ansiColor(int index)`. -/
def ansiColor (index : Int) : QColor :=
  if index ≥ 0 ∧ index < 8 then
    ansiColors.getD index.toNat QColor.invalid
  else
    QColor.invalid

/-! ## `QString::toInt` and `QString::split` -/

/-- Value of a run of ASCII digits, most significant first; `none` on any other character. -/
def digitsValue : List Char → Nat → Option Nat
  | [], acc => some acc
  | c :: cs, acc =>
    if c.isDigit then digitsValue cs (acc * 10 + (c.toNat - 48)) else none

/-- The C++ `QString::toInt(&ok)` in base 10: surrounding white space is skipped, one
optional sign, then at least one ASCII digit; the value has to fit a 32-bit `int`.
`none` stands for `ok == false`. -/
def QString.toInt (s : QString) : Option Int :=
  let t := ((s.dropWhile Char.isWhitespace).reverse.dropWhile Char.isWhitespace).reverse
  let signed : Bool × List Char :=
    match t with
    | '-' :: r => (true, r)
    | '+' :: r => (false, r)
    | r => (false, r)
  match signed.2 with
  | [] => none
  | d :: ds =>
    match digitsValue (d :: ds) 0 with
    | none => none
    | some v =>
      let n : Int := if signed.1 then -(v : Int) else (v : Int)
      if -2147483648 ≤ n ∧ n ≤ 2147483647 then some n else none

/-- The C++ `QString::split(sep)` with the default `Qt::KeepEmptyParts`. -/
def QString.split (sep : Char) : QString → List QString
  | [] => [[]]
  | c :: cs =>
    if c = sep then [] :: QString.split sep cs
    else
      match QString.split sep cs with
      | [] => [[c]]
      | h :: t => (c :: h) :: t

/-! ## `QTextCursor` on the output document -/

/-- The document of `outputArea`: every character it holds with the format it was
inserted with (paragraph separators included, they carry a format as well). -/
abbrev QTextDocument := List (Char × QTextCharFormat)

/-- A `QTextCursor` positioned at the end of its document, without selection.
`currentCharFormat` is the format set through `setCharFormat` (`none` is Qt's `-1`:
no format set, `charFormat()` reads the document).  `inserted` records the arguments of
the `insertText` calls made through this cursor, with the format each text received. -/
structure QTextCursor where
  document : QTextDocument
  currentCharFormat : Option QTextCharFormat
  inserted : List (QString × QTextCharFormat)
  deriving DecidableEq, Repr

/-- Format of the character just before the end of the document; the default format of
the initial block when the document is empty. -/
def formatAtEnd (doc : QTextDocument) : QTextCharFormat :=
  match doc.getLast? with
  | some p => p.2
  | none => QTextCharFormat.default

/-- The statements `QTextCursor cursor(outputArea->textCursor());` and
`cursor.movePosition(QTextCursor::End);`.
The cursor is a copy of the widget's cursor; moving it drops any format set on it. -/
def QTextCursor.atEnd (doc : QTextDocument) : QTextCursor :=
  { document := doc, currentCharFormat := none, inserted := [] }

/-- The getter `QTextCursor::charFormat()`. -/
def QTextCursor.charFormat (c : QTextCursor) : QTextCharFormat :=
  match c.currentCharFormat with
  | some f => f
  | none => formatAtEnd c.document

/-- The call `QTextCursor::setCharFormat(format)` without selection: only the cursor changes. -/
def QTextCursor.setCharFormat (c : QTextCursor) (format : QTextCharFormat) : QTextCursor :=
  { c with currentCharFormat := some format }

/-- The call `QTextCursor::insertText(text)`: the text goes into the document under `charFormat()`.
A non-empty insertion moves the cursor, which drops the format set on it (the format is
then read back from the inserted text); an empty text changes nothing. -/
def QTextCursor.insertText (c : QTextCursor) (text : QString) : QTextCursor :=
  let fmt := c.charFormat
  if text.isEmpty then
    { c with inserted := c.inserted ++ [(text, fmt)] }
  else
    { document := c.document ++ text.map (fun ch => (ch, fmt)),
      currentCharFormat := none,
      inserted := c.inserted ++ [(text, fmt)] }

/-! ## `applyAnsiCodes` (output.cpp 121-155) -/

/-- Body of the `for` loop of `applyAnsiCodes`, run over the remaining codes. -/
def applyAnsiCodesLoop (format : QTextCharFormat) : List QString → QTextCharFormat
  | [] => format
  | code :: rest =>
    match code.toInt with
    | none => applyAnsiCodesLoop format rest                     -- if (!ok) continue;
    | some n =>
      if n = 0 then
        applyAnsiCodesLoop QTextCharFormat.default rest
      else if n = 1 then
        applyAnsiCodesLoop { format with fontWeight := FontWeight.bold } rest
      else if n = 22 then
        applyAnsiCodesLoop { format with fontWeight := FontWeight.normal } rest
      else if n ≥ 30 ∧ n ≤ 37 then
        applyAnsiCodesLoop { format with foreground := QBrush.solid (ansiColor (n - 30)) } rest
      else if n = 39 then
        applyAnsiCodesLoop { format with foreground := QBrush.noBrush } rest
      else if n ≥ 40 ∧ n ≤ 47 then
        applyAnsiCodesLoop { format with background := QBrush.solid (ansiColor (n - 40)) } rest
      else if n = 49 then
        applyAnsiCodesLoop { format with background := QBrush.noBrush } rest
      else
        applyAnsiCodesLoop format rest

/-- The method `TerminalEmulator::applyAnsiCodes(cursor, codes)`. -/
def applyAnsiCodes (cursor : QTextCursor) (codes : List QString) : QTextCursor :=
  cursor.setCharFormat (applyAnsiCodesLoop cursor.charFormat codes)

/-! ## The regular expression `\033\[([0-9;]*)m` -/

/-- The escape character, `\033`. -/
def ESC : Char := Char.ofNat 27

/-- The character class `[0-9;]`. -/
def isCodeChar (c : Char) : Bool := c.isDigit || c == ';'

/-- A successful `QRegularExpressionMatch`: `capturedStart()`, `capturedEnd()` and
`captured(1)`. -/
structure QRegularExpressionMatch where
  capturedStart : Nat
  capturedEnd : Nat
  captured1 : QString
  deriving DecidableEq, Repr

/-- One match attempt of `ansiRegex` at the front of `s`; the result is group 1.
The class `[0-9;]` does not contain `m`, so the greedy star can only succeed on the whole
run of class characters: giving characters back never puts an `m` next. -/
def ansiRegexAt (s : QString) : Option QString :=
  match s with
  | e :: b :: rest =>
    if e = ESC ∧ b = '[' then
      match rest.dropWhile isCodeChar with
      | c :: _ => if c = 'm' then some (rest.takeWhile isCodeChar) else none
      | [] => none
    else none
  | _ => none

/-- The leftmost start position in `s` at which `ansiRegex` matches; `pos` is the
position of the head of `s` inside the subject. -/
def ansiRegexScan : QString → Nat → Option QRegularExpressionMatch
  | [], _ => none
  | c :: cs, pos =>
    match ansiRegexAt (c :: cs) with
    | some g => some { capturedStart := pos, capturedEnd := pos + (g.length + 3), captured1 := g }
    | none => ansiRegexScan cs (pos + 1)

/-- The call `ansiRegex.match(text, offset)`; `none` stands for `hasMatch() == false`. -/
def ansiRegexMatch (text : QString) (offset : Nat) : Option QRegularExpressionMatch :=
  ansiRegexScan (text.drop offset) offset

/-- The C++ `QString::mid(position, n)`. -/
def QString.mid (s : QString) (position n : Nat) : QString := (s.drop position).take n

/-- The C++ `QString::mid(position)`, up to the end of the string. -/
def QString.midToEnd (s : QString) (position : Nat) : QString := s.drop position

/-! ## `parseAnsiSequences` (output.cpp 98-119) -/

/-- The `while` loop of `parseAnsiSequences`: at most `fuel` evaluations of the loop
condition.  The result is the value of `lastPos` and the cursor when the loop exits;
`none` when the fuel is used up before the condition turns false. -/
def parseLoop (text : QString) : Nat → Nat → QTextCursor → Option (Nat × QTextCursor)
  | 0, _, _ => none
  | fuel + 1, lastPos, cursor =>
    match ansiRegexMatch text lastPos with
    | none => some (lastPos, cursor)
    | some m =>
      -- Append text before the escape sequence
      let cursor := cursor.insertText (text.mid lastPos (m.capturedStart - lastPos))
      -- Get the ANSI codes
      let codes := QString.split ';' m.captured1
      let cursor := applyAnsiCodes cursor codes
      parseLoop text fuel m.capturedEnd cursor

/-- The method `TerminalEmulator::parseAnsiSequences(text)` on the document `doc`, with a
bound on the number of loop iterations. -/
def parseAnsiSequencesFuel (fuel : Nat) (doc : QTextDocument) (text : QString) :
    Option QTextCursor :=
  match parseLoop text fuel 0 (QTextCursor.atEnd doc) with
  | none => none
  | some (lastPos, cursor) =>
    -- Append the remaining text
    some (cursor.insertText (text.midToEnd lastPos))

/-- The method `TerminalEmulator::parseAnsiSequences(text)`; the number of iterations
allowed is one more than the length of the text, which the loop never reaches. -/
def parseAnsiSequences (doc : QTextDocument) (text : QString) : Option QTextCursor :=
  parseAnsiSequencesFuel (text.length + 1) doc text

/-! ## `readFromMaster` (output.cpp 76-96) and `sendInput` (output.cpp 176-183) -/

/-- The clear-screen sequence `"\033[H\033[2J"`. -/
def clearSeq : QString := [ESC, '[', 'H', ESC, '[', '2', 'J']

/-- The C++ `QString::contains(pat)`. -/
def QString.contains (s pat : QString) : Bool :=
  match s with
  | [] => pat.isEmpty
  | c :: cs => pat.isPrefixOf (c :: cs) || QString.contains cs pat

/-- Removal of the matches of a regular expression that matches exactly the string `pat`:
matches are found left to right, each search starting after the previous match.  `skip`
counts the characters of the current match that are still to be dropped. -/
def removeLiteralAux (pat : QString) : Nat → QString → QString
  | _, [] => []
  | skip + 1, _ :: cs => removeLiteralAux pat skip cs
  | 0, c :: cs =>
    if pat.isPrefixOf (c :: cs) then removeLiteralAux pat (pat.length - 1) cs
    else c :: removeLiteralAux pat 0 cs

/-- The call `output.remove(QRegularExpression("\033\\[H\\033\\[2J"))`: the expression
matches exactly `clearSeq`. -/
def removeClearSeq (output : QString) : QString := removeLiteralAux clearSeq 0 output

/-- What `read(master_fd, buffer, sizeof(buffer) - 1)` did: the value returned and the
contents of `buffer` after the call (its first `count` bytes are the data read). -/
structure ReadResult where
  count : Int
  bytes : List Nat
  deriving DecidableEq, Repr

/-- The result of a `read` that delivers the chunk `bytes`: the count is its length. -/
def ReadResult.chunk (bytes : List Nat) : ReadResult := { count := bytes.length, bytes := bytes }

/-- A call made on the master descriptor, on the display or on the error stream. -/
inductive Effect where
  | read
  | write (buffer : List Nat) (count : Nat)
  | clear
  | insertText (text : QString) (format : QTextCharFormat)
  | perror (message : String)
  deriving DecidableEq, Repr

/-- The members of `TerminalEmulator` the two handlers use: the document of `outputArea`,
the text of `inputArea`, and whether `readNotifier` is enabled. -/
structure TerminalEmulator where
  outputArea : QTextDocument
  inputArea : QString
  readNotifierEnabled : Bool
  deriving DecidableEq, Repr

/-- The `insertText` calls recorded by a cursor, as display effects. -/
def insertEffects (spans : List (QString × QTextCharFormat)) : List Effect :=
  spans.map (fun p => Effect.insertText p.1 p.2)

/-- The bytes of the C string that starts at `buffer`: everything before the first zero. -/
def cString (buffer : List Nat) : List Nat := buffer.takeWhile (fun b => b ≠ 0)

/-- The slot `TerminalEmulator::readFromMaster()`.  `fromLocal8Bit` is the locale's
decoder, `r` is what the `read` call returned. -/
def readFromMaster (fromLocal8Bit : List Nat → QString) (self : TerminalEmulator)
    (r : ReadResult) : Option (TerminalEmulator × List Effect) :=
  if r.count > 0 then
    let buffer := r.bytes.take r.count.toNat ++ [0]    -- buffer[count] = '\0'
    let output := fromLocal8Bit (cString buffer)       -- QString::fromLocal8Bit(buffer)
    -- Handle clear screen sequence
    let cleared := output.contains clearSeq
    let doc := if cleared then [] else self.outputArea
    let output := if cleared then removeClearSeq output else output
    -- Parse and apply ANSI escape sequences
    match parseAnsiSequences doc output with
    | none => none
    | some cursor =>
      some ({ self with outputArea := cursor.document },
        [Effect.read] ++ (if cleared then [Effect.clear] else [])
          ++ insertEffects cursor.inserted)
  else if r.count = 0 then
    some ({ self with readNotifierEnabled := false }, [Effect.read])
  else
    some (self, [Effect.read, Effect.perror "read"])

/-- The slot `TerminalEmulator::sendInput()`.  `toLocal8Bit` is the locale's encoder,
`bytesWritten` is what the `write` call returned. -/
def sendInput (toLocal8Bit : QString → List Nat) (self : TerminalEmulator)
    (bytesWritten : Int) : TerminalEmulator × List Effect :=
  let input := self.inputArea ++ ['\n']
  ({ self with inputArea := [] },
    [Effect.write (toLocal8Bit input) (QString.size input)]
      ++ (if bytesWritten = -1 then [Effect.perror "write failed"] else []))

/-- The bytes a call `write(fd, buffer, count)` offers to the descriptor. -/
def bytesOffered (buffer : List Nat) (count : Nat) : List Nat := buffer.take count

/-! ## The event loop -/

/-- What the event loop delivers: the descriptor became readable (and a `read` on it
would return `r`), or the user pressed return on `line` (and `write` returns
`bytesWritten`). -/
inductive Event where
  | readable (r : ReadResult)
  | returnPressed (line : QString) (bytesWritten : Int)
  deriving DecidableEq, Repr

/-- One turn of the event loop.  `readNotifier` calls `readFromMaster` only while it is
enabled; `returnPressed` of `inputArea` always calls `sendInput`. -/
def dispatch (fromLocal8Bit : List Nat → QString) (toLocal8Bit : QString → List Nat)
    (self : TerminalEmulator) : Event → Option (TerminalEmulator × List Effect)
  | Event.readable r =>
    if self.readNotifierEnabled then readFromMaster fromLocal8Bit self r
    else some (self, [])
  | Event.returnPressed line bytesWritten =>
    some (sendInput toLocal8Bit { self with inputArea := line } bytesWritten)

/-- A run of the event loop over a list of events; the effects are collected in order. -/
def run (fromLocal8Bit : List Nat → QString) (toLocal8Bit : QString → List Nat) :
    TerminalEmulator → List Event → Option (TerminalEmulator × List Effect)
  | self, [] => some (self, [])
  | self, e :: es =>
    match dispatch fromLocal8Bit toLocal8Bit self e with
    | none => none
    | some (self1, effs1) =>
      match run fromLocal8Bit toLocal8Bit self1 es with
      | none => none
      | some (self2, effs2) => some (self2, effs1 ++ effs2)

/-- The state after the constructor: empty widgets, notifier enabled. -/
def TerminalEmulator.init : TerminalEmulator :=
  { outputArea := [], inputArea := [], readNotifierEnabled := true }

/-! ## Two locale codecs -/

/-- Decoder of an ISO-8859-1 locale: every byte is the character with that code. -/
def latin1Decode (bytes : List Nat) : QString := bytes.map Char.ofNat

/-- UTF-8 encoding of one character. -/
def utf8EncodeChar (c : Char) : List Nat :=
  let n := c.toNat
  if n < 128 then [n]
  else if n < 2048 then [192 + n / 64, 128 + n % 64]
  else if n < 65536 then [224 + n / 4096, 128 + n / 64 % 64, 128 + n % 64]
  else [240 + n / 262144, 128 + n / 4096 % 64, 128 + n / 64 % 64, 128 + n % 64]

/-- Encoder of a UTF-8 locale. -/
def utf8Encode (s : QString) : List Nat := s.flatMap utf8EncodeChar

/-- The effect is a `write` call on the master descriptor. -/
def Effect.isWrite : Effect → Bool
  | Effect.write _ _ => true
  | _ => false

/-- The event is a return key press in `inputArea`. -/
def Event.isReturnPressed : Event → Bool
  | Event.returnPressed _ _ => true
  | _ => false

/-! ## Specification-side definitions -/

/-- The SGR table of the specification, one row per code: the code and what it does to
the three attributes.  Codes without a row are ignored. -/
def sgrRows : List (Int × (QTextCharFormat → QTextCharFormat)) :=
  [ (0, fun _ => QTextCharFormat.default),
    (1, fun s => { s with fontWeight := FontWeight.bold }),
    (22, fun s => { s with fontWeight := FontWeight.normal }),
    (30, fun s => { s with foreground := QBrush.solid (QColor.rgb 0 0 0) }),
    (31, fun s => { s with foreground := QBrush.solid (QColor.rgb 128 0 0) }),
    (32, fun s => { s with foreground := QBrush.solid (QColor.rgb 0 128 0) }),
    (33, fun s => { s with foreground := QBrush.solid (QColor.rgb 128 128 0) }),
    (34, fun s => { s with foreground := QBrush.solid (QColor.rgb 0 0 128) }),
    (35, fun s => { s with foreground := QBrush.solid (QColor.rgb 128 0 128) }),
    (36, fun s => { s with foreground := QBrush.solid (QColor.rgb 0 128 128) }),
    (37, fun s => { s with foreground := QBrush.solid (QColor.rgb 192 192 192) }),
    (39, fun s => { s with foreground := QBrush.noBrush }),
    (40, fun s => { s with background := QBrush.solid (QColor.rgb 0 0 0) }),
    (41, fun s => { s with background := QBrush.solid (QColor.rgb 128 0 0) }),
    (42, fun s => { s with background := QBrush.solid (QColor.rgb 0 128 0) }),
    (43, fun s => { s with background := QBrush.solid (QColor.rgb 128 128 0) }),
    (44, fun s => { s with background := QBrush.solid (QColor.rgb 0 0 128) }),
    (45, fun s => { s with background := QBrush.solid (QColor.rgb 128 0 128) }),
    (46, fun s => { s with background := QBrush.solid (QColor.rgb 0 128 128) }),
    (47, fun s => { s with background := QBrush.solid (QColor.rgb 192 192 192) }),
    (49, fun s => { s with background := QBrush.noBrush }) ]

/-- Effect of code `n` on style `s` according to a list of rows: the first row for `n`
applies; without a row the style stays as it is. -/
def applyRow (n : Int) (s : QTextCharFormat) :
    List (Int × (QTextCharFormat → QTextCharFormat)) → QTextCharFormat
  | [] => s
  | row :: rows => if n = row.1 then row.2 s else applyRow n s rows

/-- Effect of one SGR code on a style, read off the specification's table. -/
def sgrTable (s : QTextCharFormat) (n : Int) : QTextCharFormat := applyRow n s sgrRows

/-- The style after the codes of one escape sequence: the table folded, left to right,
over the elements that parse as integers. -/
def sgrFold (s : QTextCharFormat) (codes : List QString) : QTextCharFormat :=
  (codes.filterMap QString.toInt).foldl sgrTable s

/-- A match of `ESC [ <digits and semicolons> m`, with its digit list `ds`. -/
def IsSgrSequence (ds m : QString) : Prop :=
  (∀ c ∈ ds, c.isDigit = true ∨ c = ';') ∧ m = ESC :: '[' :: (ds ++ ['m'])

/-- The text `t` holds no match of `ESC [ <digits and semicolons> m`. -/
def HasNoSgr (t : QString) : Prop :=
  ∀ a ds m b, t = a ++ m ++ b → ¬ IsSgrSequence ds m

/-- In `a ++ m ++ rest` the match `m` is the leftmost one: no match starts inside `a`. -/
def IsLeftmost (a m rest : QString) : Prop :=
  ∀ a1 ds1 m1 b1, a ++ m ++ rest = a1 ++ m1 ++ b1 → IsSgrSequence ds1 m1 → a.length ≤ a1.length

/-- The spans of the specification: `Styled s t spans` says that scanning `t` under the
style `s` yields `spans`.  The text before the leftmost match is a span under the style
as it stands; the codes of the match then update the style, and scanning goes on right
after the match.  The text after the last match is the last span. -/
inductive Styled : QTextCharFormat → QString → List (QString × QTextCharFormat) → Prop where
  | last (s : QTextCharFormat) (t : QString) : HasNoSgr t → Styled s t [(t, s)]
  | next (s : QTextCharFormat) (a ds m rest : QString) (spans : List (QString × QTextCharFormat)) :
      IsSgrSequence ds m → IsLeftmost a m rest →
      Styled (sgrFold s (QString.split ';' ds)) rest spans →
      Styled s (a ++ m ++ rest) ((a, s) :: spans)

/-- The text of the specification with the escape sequences removed: `SgrRemoved t out`
says that `out` is `t` without its matches, found left to right, each search starting
where the previous match ended. -/
inductive SgrRemoved : QString → QString → Prop where
  | last (t : QString) : HasNoSgr t → SgrRemoved t t
  | next (a ds m rest out : QString) :
      IsSgrSequence ds m → IsLeftmost a m rest →
      SgrRemoved rest out → SgrRemoved (a ++ m ++ rest) (a ++ out)

/-- The texts of a list of spans, concatenated in order. -/
def spanText (spans : List (QString × QTextCharFormat)) : QString :=
  (spans.map Prod.fst).flatten

/-! ## Theorems -/

/-! ### The colour table -/

/-- C8: `ansiColor` returns the eight fixed colours for the indices 0 to 7, in the order
black, red, green, yellow, blue, magenta, cyan, white, and the default (invalid) colour
for every other index, negative ones included; index 8 gives the default. -/
theorem ansiColor_table (i : Int) :
    ansiColor 0 = QColor.rgb 0 0 0 ∧ ansiColor 1 = QColor.rgb 128 0 0 ∧
    ansiColor 2 = QColor.rgb 0 128 0 ∧ ansiColor 3 = QColor.rgb 128 128 0 ∧
    ansiColor 4 = QColor.rgb 0 0 128 ∧ ansiColor 5 = QColor.rgb 128 0 128 ∧
    ansiColor 6 = QColor.rgb 0 128 128 ∧ ansiColor 7 = QColor.rgb 192 192 192 ∧
    ansiColor 8 = QColor.invalid ∧
    ((i < 0 ∨ i ≥ 8) → ansiColor i = QColor.invalid) := by
  refine ⟨by decide, by decide, by decide, by decide, by decide, by decide, by decide,
    by decide, by decide, ?_⟩
  intro h
  unfold ansiColor
  rw [if_neg]
  omega

/-- Witness of C8 at the index -3. -/
theorem ansiColor_table_witness :
    ((-3 : Int) < 0 ∨ (-3 : Int) ≥ 8) ∧ ansiColor (-3) = QColor.invalid :=
  ⟨Or.inl (by decide), (ansiColor_table (-3)).2.2.2.2.2.2.2.2.2 (Or.inl (by decide))⟩

/-! ### The SGR codes -/

/-- A code without a row leaves the style as it is. -/
theorem applyRow_of_no_row (n : Int) (s : QTextCharFormat) :
    ∀ rows : List (Int × (QTextCharFormat → QTextCharFormat)),
      (∀ row ∈ rows, n ≠ row.1) → applyRow n s rows = s := by
  intro rows
  induction rows with
  | nil => intro _; rfl
  | cons row rows ih =>
    intro h
    rw [applyRow, if_neg (h row (List.mem_cons_self _ _))]
    exact ih (fun r hr => h r (List.mem_cons_of_mem _ hr))

/-- One pass of the loop body of `applyAnsiCodes` is one lookup in the table. -/
theorem applyAnsiCodesLoop_cons_some (format : QTextCharFormat) (code : QString)
    (rest : List QString) (n : Int) (h : code.toInt = some n) :
    applyAnsiCodesLoop format (code :: rest) = applyAnsiCodesLoop (sgrTable format n) rest := by
  rw [applyAnsiCodesLoop, h]
  by_cases hr : 0 ≤ n ∧ n ≤ 49
  · obtain ⟨h0, h1⟩ := hr
    interval_cases n <;> rfl
  · have hs : sgrTable format n = format := by
      apply applyRow_of_no_row
      intro row hrow
      simp only [sgrRows, List.mem_cons, List.mem_singleton, List.not_mem_nil, or_false] at hrow
      rcases hrow with h | h | h | h | h | h | h | h | h | h | h | h | h | h | h | h | h | h
        | h | h | h <;> (subst h; simp only; omega)
    rw [hs]
    dsimp only
    split_ifs <;> first | rfl | (exfalso; omega)

/-- A code that does not parse is skipped. -/
theorem applyAnsiCodesLoop_cons_none (format : QTextCharFormat) (code : QString)
    (rest : List QString) (h : code.toInt = none) :
    applyAnsiCodesLoop format (code :: rest) = applyAnsiCodesLoop format rest := by
  rw [applyAnsiCodesLoop, h]

/-- The loop of `applyAnsiCodes` is the fold of the table. -/
theorem applyAnsiCodesLoop_eq_sgrFold (codes : List QString) :
    ∀ format : QTextCharFormat, applyAnsiCodesLoop format codes = sgrFold format codes := by
  induction codes with
  | nil => intro format; rfl
  | cons code rest ih =>
    intro format
    cases h : code.toInt with
    | none =>
      rw [applyAnsiCodesLoop_cons_none format code rest h, ih]
      simp [sgrFold, List.filterMap_cons, h]
    | some n =>
      rw [applyAnsiCodesLoop_cons_some format code rest n h, ih]
      simp [sgrFold, List.filterMap_cons, h]

/-- C3: for every cursor (style state `cursor.charFormat`) and every list of code strings,
`applyAnsiCodes` leaves the cursor with the style obtained by folding the SGR table, left
to right, over the elements that parse as integers; the rows of the table are 0 (all
defaults), 1 (bold), 22 (normal weight), 30..37 (foreground colour n-30), 39 (default
foreground), 40..47 (background colour n-40), 49 (default background), and each row
touches one attribute only; an element that parses as any other integer has no row and
leaves the style exactly as it was. -/
theorem applyAnsiCodes_eq_table_fold (cursor : QTextCursor) (codes : List QString)
    (code : QString) (n : Int) :
    applyAnsiCodes cursor codes
      = cursor.setCharFormat ((codes.filterMap QString.toInt).foldl sgrTable cursor.charFormat) ∧
    (code.toInt = some n →
      n ≠ 0 ∧ n ≠ 1 ∧ n ≠ 22 ∧ ¬ (30 ≤ n ∧ n ≤ 37) ∧ n ≠ 39 ∧ ¬ (40 ≤ n ∧ n ≤ 47) ∧ n ≠ 49 →
      (applyAnsiCodes cursor [code]).charFormat = cursor.charFormat) := by
  constructor
  · unfold applyAnsiCodes
    rw [applyAnsiCodesLoop_eq_sgrFold]
    rfl
  · intro hn hrange
    show applyAnsiCodesLoop cursor.charFormat [code] = cursor.charFormat
    rw [applyAnsiCodesLoop, hn]
    dsimp only
    split_ifs <;> first | rfl | (exfalso; omega)

/-- Witness of C3 on the unknown code 99, from the default style. -/
theorem applyAnsiCodes_eq_table_fold_witness :
    QString.toInt ['9', '9'] = some 99 ∧
    (applyAnsiCodes (QTextCursor.atEnd []) [['9', '9']]).charFormat
      = (QTextCursor.atEnd []).charFormat :=
  ⟨by decide,
    (applyAnsiCodes_eq_table_fold (QTextCursor.atEnd []) [] ['9', '9'] 99).2 (by decide)
      (by decide)⟩

/-! ### The regular expression -/

theorem isCodeChar_m : isCodeChar 'm' = false := by decide

theorem isCodeChar_of_sgr {ds : QString} (h : ∀ c ∈ ds, c.isDigit = true ∨ c = ';') :
    ∀ c ∈ ds, isCodeChar c = true := by
  intro c hc
  rcases h c hc with h1 | h1
  · simp [isCodeChar, h1]
  · simp [isCodeChar, h1]

theorem sgr_of_isCodeChar {ds : QString} (h : ∀ c ∈ ds, isCodeChar c = true) :
    ∀ c ∈ ds, c.isDigit = true ∨ c = ';' := by
  intro c hc
  have := h c hc
  simpa [isCodeChar] using this

/-- A successful attempt has consumed `ESC [`, the captured run and `m`. -/
theorem ansiRegexAt_some {s g : QString} (h : ansiRegexAt s = some g) :
    (∀ c ∈ g, isCodeChar c = true) ∧ ∃ rest, s = ESC :: '[' :: (g ++ 'm' :: rest) := by
  rcases s with _ | ⟨e, _ | ⟨b, rest⟩⟩
  · simp [ansiRegexAt] at h
  · simp [ansiRegexAt] at h
  · simp only [ansiRegexAt] at h
    by_cases hc : e = ESC ∧ b = '['
    · rw [if_pos hc] at h
      cases hd : rest.dropWhile isCodeChar with
      | nil => simp [hd] at h
      | cons c tl =>
        simp only [hd] at h
        by_cases hm : c = 'm'
        · rw [if_pos hm] at h
          injection h with h
          subst h
          refine ⟨fun c hc => List.mem_takeWhile_imp hc, tl, ?_⟩
          have := List.takeWhile_append_dropWhile isCodeChar rest
          rw [hd, hm] at this
          rw [hc.1, hc.2, this]
        · rw [if_neg hm] at h
          exact absurd h (by simp)
    · rw [if_neg hc] at h
      exact absurd h (by simp)

/-- An attempt at the front of an escape sequence succeeds and captures its digit list. -/
theorem ansiRegexAt_of_form {g : QString} (rest : QString) (hg : ∀ c ∈ g, isCodeChar c = true) :
    ansiRegexAt (ESC :: '[' :: (g ++ 'm' :: rest)) = some g := by
  unfold ansiRegexAt
  simp [List.takeWhile_append_of_pos hg, List.dropWhile_append_of_pos hg, List.takeWhile_cons,
    List.dropWhile_cons, isCodeChar_m]

theorem ansiRegexAt_of_sgr {ds m : QString} (b : QString) (h : IsSgrSequence ds m) :
    ansiRegexAt (m ++ b) = some ds := by
  obtain ⟨hds, rfl⟩ := h
  have := ansiRegexAt_of_form b (isCodeChar_of_sgr hds)
  simpa using this

theorem ansiRegexScan_some : ∀ (s : QString) (pos : Nat) (m : QRegularExpressionMatch),
    ansiRegexScan s pos = some m →
    ∃ k, m.capturedStart = pos + k ∧ m.capturedEnd = pos + k + (m.captured1.length + 3) ∧
      ansiRegexAt (s.drop k) = some m.captured1 ∧ ∀ j, j < k → ansiRegexAt (s.drop j) = none := by
  intro s
  induction s with
  | nil => intro pos m h; simp [ansiRegexScan] at h
  | cons c cs ih =>
    intro pos m h
    unfold ansiRegexScan at h
    cases hat : ansiRegexAt (c :: cs) with
    | some g =>
      rw [hat] at h
      injection h with h
      subst h
      exact ⟨0, by simp, by simp, by simpa using hat, fun j hj => absurd hj (Nat.not_lt_zero j)⟩
    | none =>
      rw [hat] at h
      obtain ⟨k, h1, h2, h3, h4⟩ := ih (pos + 1) m h
      refine ⟨k + 1, by omega, by omega, by simpa using h3, ?_⟩
      intro j hj
      cases j with
      | zero => simpa using hat
      | succ j => simpa using h4 j (by omega)

theorem ansiRegexScan_none : ∀ (s : QString) (pos : Nat),
    ansiRegexScan s pos = none → ∀ j, ansiRegexAt (s.drop j) = none := by
  intro s
  induction s with
  | nil => intro pos _ j; simp [ansiRegexAt]
  | cons c cs ih =>
    intro pos h j
    unfold ansiRegexScan at h
    cases hat : ansiRegexAt (c :: cs) with
    | some g => rw [hat] at h; exact absurd h (by simp)
    | none =>
      rw [hat] at h
      cases j with
      | zero => simpa using hat
      | succ j => simpa using ih (pos + 1) h j

/-- A text in which no attempt succeeds holds no escape sequence. -/
theorem hasNoSgr_of_at_none {t : QString} (h : ∀ j, ansiRegexAt (t.drop j) = none) :
    HasNoSgr t := by
  intro a ds m b ht hm
  have h1 := h a.length
  rw [ht, List.append_assoc, List.drop_left, ansiRegexAt_of_sgr b hm] at h1
  exact absurd h1 (by simp)

/-- In a text without escape sequences the scan finds nothing. -/
theorem ansiRegexScan_of_hasNoSgr {t : QString} (h : HasNoSgr t) (pos : Nat) :
    ansiRegexScan t pos = none := by
  cases hs : ansiRegexScan t pos with
  | none => rfl
  | some m =>
    exfalso
    obtain ⟨k, _, _, h3, _⟩ := ansiRegexScan_some t pos m hs
    obtain ⟨hg, rest, hr⟩ := ansiRegexAt_some h3
    refine h (t.take k) m.captured1 (ESC :: '[' :: (m.captured1 ++ ['m'])) rest ?_
      ⟨sgr_of_isCodeChar hg, rfl⟩
    have := List.take_append_drop k t
    rw [hr] at this
    exact this.symm.trans (by simp)

/-- What a successful `ansiRegex.match(text, lastPos)` says about the text. -/
theorem ansiRegexMatch_some {text : QString} {lastPos : Nat} {m : QRegularExpressionMatch}
    (h : ansiRegexMatch text lastPos = some m) :
    lastPos ≤ m.capturedStart ∧
    m.capturedEnd = m.capturedStart + (m.captured1.length + 3) ∧
    m.capturedEnd ≤ text.length ∧
    ansiRegexAt (text.drop m.capturedStart) = some m.captured1 ∧
    ∀ j, lastPos ≤ j → j < m.capturedStart → ansiRegexAt (text.drop j) = none := by
  obtain ⟨k, h1, h2, h3, h4⟩ := ansiRegexScan_some _ _ _ h
  rw [List.drop_drop] at h3
  rw [← h1] at h3
  refine ⟨by omega, by omega, ?_, h3, ?_⟩
  · obtain ⟨_, rest, hr⟩ := ansiRegexAt_some h3
    have hl := congrArg List.length hr
    simp at hl
    omega
  · intro j hj1 hj2
    have := h4 (j - lastPos) (by omega)
    rw [List.drop_drop] at this
    rwa [show lastPos + (j - lastPos) = j by omega] at this

/-! ### The cursor -/

theorem insertText_inserted (c : QTextCursor) (t : QString) :
    (c.insertText t).inserted = c.inserted ++ [(t, c.charFormat)] := by
  unfold QTextCursor.insertText
  by_cases h : t.isEmpty = true <;> simp [h]

theorem formatAtEnd_append (doc : QTextDocument) (t : QString) (f : QTextCharFormat)
    (h : t ≠ []) : formatAtEnd (doc ++ t.map (fun ch => (ch, f))) = f := by
  unfold formatAtEnd
  rw [List.getLast?_append_of_ne_nil _ (by simpa using h), List.getLast?_map]
  cases hl : t.getLast? with
  | none => exact absurd (List.getLast?_eq_none_iff.mp hl) h
  | some ch => rfl

/-- Inserting text does not change the style in effect. -/
theorem insertText_charFormat (c : QTextCursor) (t : QString) :
    (c.insertText t).charFormat = c.charFormat := by
  unfold QTextCursor.insertText
  by_cases h : t.isEmpty = true
  · simp only [h, if_true]
    rfl
  · simp only [h]
    have ht : t ≠ [] := by
      intro h0
      exact h (by simp [h0])
    simp only [QTextCursor.charFormat]
    exact formatAtEnd_append _ _ _ ht

theorem applyAnsiCodes_inserted (c : QTextCursor) (codes : List QString) :
    (applyAnsiCodes c codes).inserted = c.inserted := rfl

theorem applyAnsiCodes_charFormat (c : QTextCursor) (codes : List QString) :
    (applyAnsiCodes c codes).charFormat = sgrFold c.charFormat codes := by
  unfold applyAnsiCodes
  rw [applyAnsiCodesLoop_eq_sgrFold]
  rfl

/-! ### The loop of `parseAnsiSequences` -/

/-- The text from `lastPos` on splits into the text before the match, the match, and the
text from `capturedEnd` on; the match is the leftmost one. -/
theorem match_decomposition {text : QString} {lastPos : Nat} {m : QRegularExpressionMatch}
    (h : ansiRegexMatch text lastPos = some m) :
    text.drop lastPos
        = text.mid lastPos (m.capturedStart - lastPos)
          ++ (ESC :: '[' :: (m.captured1 ++ ['m'])) ++ text.drop m.capturedEnd ∧
    IsSgrSequence m.captured1 (ESC :: '[' :: (m.captured1 ++ ['m'])) ∧
    IsLeftmost (text.mid lastPos (m.capturedStart - lastPos))
      (ESC :: '[' :: (m.captured1 ++ ['m'])) (text.drop m.capturedEnd) := by
  obtain ⟨h1, h2, h3, h4, h5⟩ := ansiRegexMatch_some h
  obtain ⟨hg, rest, hr⟩ := ansiRegexAt_some h4
  have hrest : text.drop m.capturedEnd = rest := by
    have := congrArg (List.drop (m.captured1.length + 3)) hr
    rw [List.drop_drop, ← h2] at this
    rw [this]
    have e : ESC :: '[' :: (m.captured1 ++ 'm' :: rest)
        = (ESC :: '[' :: (m.captured1 ++ ['m'])) ++ rest := by simp
    rw [e]
    have hl : (ESC :: '[' :: (m.captured1 ++ ['m'])).length = m.captured1.length + 3 := by simp
    rw [← hl, List.drop_left]
  have hsplit : text.drop lastPos
        = text.mid lastPos (m.capturedStart - lastPos)
          ++ (ESC :: '[' :: (m.captured1 ++ ['m'])) ++ text.drop m.capturedEnd := by
    have := (List.take_append_drop (m.capturedStart - lastPos) (text.drop lastPos)).symm
    rw [List.drop_drop, show lastPos + (m.capturedStart - lastPos) = m.capturedStart by omega,
      hr] at this
    rw [hrest]
    exact this.trans (by simp [QString.mid])
  refine ⟨hsplit, ⟨sgr_of_isCodeChar hg, rfl⟩, ?_⟩
  intro a1 ds1 m1 b1 he hm1
  by_contra hlt
  have hlt : a1.length < (text.mid lastPos (m.capturedStart - lastPos)).length := by omega
  have hlen : (text.mid lastPos (m.capturedStart - lastPos)).length ≤ m.capturedStart - lastPos := by
    simp [QString.mid]
  have hnone := h5 (lastPos + a1.length) (by omega) (by omega)
  rw [← List.drop_drop, hsplit, he, List.append_assoc, List.drop_left,
    ansiRegexAt_of_sgr b1 hm1] at hnone
  exact absurd hnone (by simp)

/-- The loop exits when it is given a third of the remaining length, plus one, as fuel.
The spans it has inserted, followed by the rest of the text under the style at exit, are
the spans of the specification. -/
theorem parseLoop_styled (text : QString) : ∀ (fuel lastPos : Nat) (cursor : QTextCursor),
    text.length - lastPos < 3 * fuel →
    ∃ lp c spans, parseLoop text fuel lastPos cursor = some (lp, c) ∧
      c.inserted = cursor.inserted ++ spans ∧
      Styled cursor.charFormat (text.drop lastPos) (spans ++ [(text.drop lp, c.charFormat)]) := by
  intro fuel
  induction fuel with
  | zero => intro lastPos cursor h; omega
  | succ fuel ih =>
    intro lastPos cursor hfuel
    unfold parseLoop
    cases hm : ansiRegexMatch text lastPos with
    | none =>
      refine ⟨lastPos, cursor, [], rfl, by simp, ?_⟩
      exact Styled.last _ _ (hasNoSgr_of_at_none (ansiRegexScan_none _ _ hm))
    | some m =>
      obtain ⟨h1, h2, h3, _, _⟩ := ansiRegexMatch_some hm
      obtain ⟨hsplit, hsgr, hleft⟩ := match_decomposition hm
      obtain ⟨lp, c, spans, hrun, hins, hst⟩ :=
        ih m.capturedEnd
          (applyAnsiCodes (cursor.insertText (text.mid lastPos (m.capturedStart - lastPos)))
            (QString.split ';' m.captured1)) (by omega)
      refine ⟨lp, c,
        (text.mid lastPos (m.capturedStart - lastPos), cursor.charFormat) :: spans, hrun, ?_, ?_⟩
      · rw [hins, applyAnsiCodes_inserted, insertText_inserted]
        simp
      · rw [applyAnsiCodes_charFormat, insertText_charFormat] at hst
        rw [hsplit]
        exact Styled.next _ _ _ _ _ _ hsgr hleft hst

/-- More fuel does not change the result of the loop. -/
theorem parseLoop_fuel_succ (text : QString) : ∀ (fuel lastPos : Nat) (cursor : QTextCursor)
    (r : Nat × QTextCursor), parseLoop text fuel lastPos cursor = some r →
    parseLoop text (fuel + 1) lastPos cursor = some r := by
  intro fuel
  induction fuel with
  | zero => intro lastPos cursor r h; simp [parseLoop] at h
  | succ fuel ih =>
    intro lastPos cursor r h
    unfold parseLoop at h ⊢
    cases hm : ansiRegexMatch text lastPos with
    | none => rw [hm] at h; exact h
    | some m =>
      rw [hm] at h
      exact ih _ _ _ h

theorem parseLoop_fuel_add (text : QString) (fuel lastPos : Nat) (cursor : QTextCursor)
    (r : Nat × QTextCursor) (h : parseLoop text fuel lastPos cursor = some r) :
    ∀ k, parseLoop text (fuel + k) lastPos cursor = some r := by
  intro k
  induction k with
  | zero => exact h
  | succ k ih => exact parseLoop_fuel_succ text (fuel + k) lastPos cursor r ih

/-- The call `parseAnsiSequences` returns, and the spans it inserts are those of the specification
for the style at the end of the document. -/
theorem parseAnsiSequences_styled (doc : QTextDocument) (text : QString) :
    ∃ c, parseAnsiSequences doc text = some c ∧ Styled (formatAtEnd doc) text c.inserted := by
  obtain ⟨lp, c, spans, hrun, hins, hst⟩ :=
    parseLoop_styled text (text.length + 1) 0 (QTextCursor.atEnd doc) (by omega)
  refine ⟨c.insertText (text.midToEnd lp), ?_, ?_⟩
  · simp only [parseAnsiSequences, parseAnsiSequencesFuel, hrun]
  · rw [insertText_inserted, hins]
    simpa [QTextCursor.atEnd, QTextCursor.charFormat, QString.midToEnd] using hst

/-- Forgetting the styles of the spans leaves the text with the escape sequences removed. -/
theorem sgrRemoved_of_styled {s : QTextCharFormat} {t : QString}
    {spans : List (QString × QTextCharFormat)} (h : Styled s t spans) :
    SgrRemoved t (spanText spans) := by
  induction h with
  | last s t hno =>
    have : spanText [(t, s)] = t := by simp [spanText]
    rw [this]
    exact SgrRemoved.last t hno
  | next s a ds m rest spans hsgr hleft _ ih =>
    have : spanText ((a, s) :: spans) = a ++ spanText spans := by simp [spanText]
    rw [this]
    exact SgrRemoved.next a ds m rest _ hsgr hleft ih

/-- The text with the escape sequences removed is determined by the text. -/
theorem sgrRemoved_unique {t out1 : QString} (h1 : SgrRemoved t out1) :
    ∀ out2, SgrRemoved t out2 → out1 = out2 := by
  induction h1 with
  | last t hno =>
    intro out2 h2
    cases h2 with
    | last _ _ => rfl
    | next a ds m rest out hsgr _ _ => exact absurd hsgr (hno a ds m rest rfl)
  | next a ds m rest out hsgr hleft _ ih =>
    intro out2 h2
    generalize ht : a ++ m ++ rest = t at h2
    cases h2 with
    | last _ hno => exact absurd hsgr (hno a ds m rest ht.symm)
    | next a2 ds2 m2 rest2 out2 hsgr2 hleft2 hrem2 =>
      have hlen : a.length = a2.length :=
        Nat.le_antisymm (hleft a2 ds2 m2 rest2 ht hsgr2) (hleft2 a ds m rest ht.symm hsgr)
      rw [List.append_assoc, List.append_assoc] at ht
      obtain ⟨ha, hrest⟩ := List.append_inj ht hlen
      have hds : ds = ds2 := by
        have e1 := ansiRegexAt_of_sgr rest hsgr
        have e2 := ansiRegexAt_of_sgr rest2 hsgr2
        rw [hrest, e2] at e1
        injection e1 with e1
        exact e1.symm
      have hm : m = m2 := by rw [hsgr.2, hsgr2.2, hds]
      subst ha hds hm
      have hr : rest = rest2 := List.append_cancel_left hrest
      subst hr
      rw [ih out2 hrem2]

/-- C2: for every text, `parseAnsiSequences` returns, and the spans it inserts,
concatenated in order, are the text with every match of `ESC [ <digits and semicolons> m`
removed, the matches being found left to right, each search starting where the previous
match ended: the characters outside the matches are kept in order, those of the matches
are not emitted.  The relation `SgrRemoved` admits no other result for the text. -/
theorem parseAnsiSequences_removes_sgr (doc : QTextDocument) (text : QString) :
    ∃ c, parseAnsiSequences doc text = some c ∧ SgrRemoved text (spanText c.inserted) ∧
      ∀ out, SgrRemoved text out → out = spanText c.inserted := by
  obtain ⟨c, hc, hst⟩ := parseAnsiSequences_styled doc text
  exact ⟨c, hc, sgrRemoved_of_styled hst,
    fun out h => (sgrRemoved_unique (sgrRemoved_of_styled hst) out h).symm⟩

/-- C10: for every text the matching loop of `parseAnsiSequences` terminates.  Every match
found from `lastPos` starts at or after `lastPos`, is at least 3 characters long and ends
inside the text, so `lastPos` strictly increases and stays within the length of the text;
with a third of the length of the text, plus one, as bound on the iterations the loop
reaches its exit, with one and the same result for every larger bound. -/
theorem parseLoop_terminates (text : QString) (cursor : QTextCursor) :
    (∀ lastPos m, ansiRegexMatch text lastPos = some m →
      lastPos ≤ m.capturedStart ∧ m.capturedStart + 3 ≤ m.capturedEnd ∧
      lastPos < m.capturedEnd ∧ m.capturedEnd ≤ text.length) ∧
    ∃ r, ∀ fuel, text.length / 3 + 1 ≤ fuel → parseLoop text fuel 0 cursor = some r := by
  constructor
  · intro lastPos m hm
    obtain ⟨h1, h2, h3, _, _⟩ := ansiRegexMatch_some hm
    omega
  · obtain ⟨lp, c, _, hrun, _, _⟩ :=
      parseLoop_styled text (text.length / 3 + 1) 0 cursor (by omega)
    refine ⟨(lp, c), ?_⟩
    intro fuel hfuel
    have := parseLoop_fuel_add text (text.length / 3 + 1) 0 cursor (lp, c) hrun
      (fuel - (text.length / 3 + 1))
    rwa [show text.length / 3 + 1 + (fuel - (text.length / 3 + 1)) = fuel by omega] at this

/-- Witness of C10 on the text `ESC [ 1 m a`: the match found from position 0 ends at 4,
and two iterations are enough. -/
theorem parseLoop_terminates_witness :
    ansiRegexMatch [ESC, '[', '1', 'm', 'a'] 0 = some ⟨0, 4, ['1']⟩ ∧
    ((0 : Nat) ≤ 0 ∧ 0 + 3 ≤ 4 ∧ 0 < 4 ∧ 4 ≤ [ESC, '[', '1', 'm', 'a'].length) ∧
    [ESC, '[', '1', 'm', 'a'].length / 3 + 1 ≤ 2 ∧
    ∃ r, parseLoop [ESC, '[', '1', 'm', 'a'] 2 0 (QTextCursor.atEnd []) = some r :=
  ⟨by decide,
   (parseLoop_terminates [ESC, '[', '1', 'm', 'a'] (QTextCursor.atEnd [])).1 0 ⟨0, 4, ['1']⟩
     (by decide),
   by decide,
   (parseLoop_terminates [ESC, '[', '1', 'm', 'a'] (QTextCursor.atEnd [])).2.elim
     (fun r hr => ⟨r, hr 2 (by decide)⟩)⟩

/-! ### The spans and their styles -/

/-- The spans of the specification are determined by the style and the text. -/
theorem styled_unique {s : QTextCharFormat} {t : QString}
    {sp1 : List (QString × QTextCharFormat)} (h1 : Styled s t sp1) :
    ∀ sp2, Styled s t sp2 → sp1 = sp2 := by
  induction h1 with
  | last s t hno =>
    intro sp2 h2
    cases h2 with
    | last _ _ _ => rfl
    | next _ a ds m rest spans hsgr _ _ => exact absurd hsgr (hno a ds m rest rfl)
  | next s a ds m rest spans hsgr hleft _ ih =>
    intro sp2 h2
    generalize ht : a ++ m ++ rest = t at h2
    cases h2 with
    | last _ _ hno => exact absurd hsgr (hno a ds m rest ht.symm)
    | next _ a2 ds2 m2 rest2 spans2 hsgr2 hleft2 hst2 =>
      have hlen : a.length = a2.length :=
        Nat.le_antisymm (hleft a2 ds2 m2 rest2 ht hsgr2) (hleft2 a ds m rest ht.symm hsgr)
      rw [List.append_assoc, List.append_assoc] at ht
      obtain ⟨ha, hrest⟩ := List.append_inj ht hlen
      have hds : ds = ds2 := by
        have e1 := ansiRegexAt_of_sgr rest hsgr
        have e2 := ansiRegexAt_of_sgr rest2 hsgr2
        rw [hrest, e2] at e1
        injection e1 with e1
        exact e1.symm
      have hm : m = m2 := by rw [hsgr.2, hsgr2.2, hds]
      subst ha hds hm
      have hr : rest = rest2 := List.append_cancel_left hrest
      subst hr
      rw [ih spans2 hst2]

/-- One escape sequence followed by text without escape sequences: an empty span under
the old style, then the text under the style the codes produce. -/
theorem styled_sequence_then_text (s : QTextCharFormat) (ds X : QString)
    (hds : ∀ c ∈ ds, c.isDigit = true ∨ c = ';') (hX : HasNoSgr X) :
    Styled s (ESC :: '[' :: (ds ++ 'm' :: X))
      [([], s), (X, sgrFold s (QString.split ';' ds))] := by
  have h := Styled.next s [] ds (ESC :: '[' :: (ds ++ ['m'])) X _ ⟨hds, rfl⟩
    (fun a1 _ _ _ _ _ => Nat.zero_le a1.length) (Styled.last (sgrFold s (QString.split ';' ds)) X hX)
  simpa using h

/-- C7: a style change applies only to the text after it.  From a document whose style
at the end is the default, for all texts X and Y without escape sequences, the call on
`ESC[1;31m X` inserts X bold with foreground (128,0,0) and default background, and the
next call, on `ESC[0m Y`, inserts Y with all defaults (each after an empty span for the
text before the escape sequence).  In general the spans inserted by a call are those of
`Styled`: the text before a match carries the style as it stood before the codes of that
match were applied. -/
theorem style_applies_to_following_text (doc : QTextDocument) (X Y text : QString) :
    (formatAtEnd doc = QTextCharFormat.default → HasNoSgr X → HasNoSgr Y →
      ∃ c1, parseAnsiSequences doc (ESC :: '[' :: '1' :: ';' :: '3' :: '1' :: 'm' :: X) = some c1 ∧
        c1.inserted = [([], QTextCharFormat.default),
          (X, ⟨FontWeight.bold, QBrush.solid (QColor.rgb 128 0 0), QBrush.noBrush⟩)] ∧
        ∃ c2, parseAnsiSequences c1.document (ESC :: '[' :: '0' :: 'm' :: Y) = some c2 ∧
          c2.inserted = [([], formatAtEnd c1.document), (Y, QTextCharFormat.default)]) ∧
    ∃ c, parseAnsiSequences doc text = some c ∧ Styled (formatAtEnd doc) text c.inserted := by
  refine ⟨?_, parseAnsiSequences_styled doc text⟩
  intro hdoc hX hY
  obtain ⟨c1, hc1, hst1⟩ :=
    parseAnsiSequences_styled doc (ESC :: '[' :: '1' :: ';' :: '3' :: '1' :: 'm' :: X)
  obtain ⟨c2, hc2, hst2⟩ :=
    parseAnsiSequences_styled c1.document (ESC :: '[' :: '0' :: 'm' :: Y)
  have e1 := styled_unique hst1 _
    (styled_sequence_then_text (formatAtEnd doc) ['1', ';', '3', '1'] X (by decide) hX)
  have e2 := styled_unique hst2 _
    (styled_sequence_then_text (formatAtEnd c1.document) ['0'] Y (by decide) hY)
  refine ⟨c1, hc1, ?_, c2, hc2, ?_⟩
  · rw [e1, hdoc]
    rfl
  · rw [e2]
    rfl

/-- The text `hi` holds no escape sequence. -/
theorem hasNoSgr_hi : HasNoSgr ['h', 'i'] :=
  hasNoSgr_of_at_none (ansiRegexScan_none ['h', 'i'] 0 (by decide))

/-- Witness of C7 with the empty document, X = Y = `hi`. -/
theorem style_applies_to_following_text_witness :
    formatAtEnd [] = QTextCharFormat.default ∧ HasNoSgr ['h', 'i'] ∧
    ∃ c1, parseAnsiSequences [] (ESC :: '[' :: '1' :: ';' :: '3' :: '1' :: 'm' :: ['h', 'i']) = some c1 ∧
      c1.inserted = [([], QTextCharFormat.default),
        (['h', 'i'], ⟨FontWeight.bold, QBrush.solid (QColor.rgb 128 0 0), QBrush.noBrush⟩)] ∧
      ∃ c2, parseAnsiSequences c1.document (ESC :: '[' :: '0' :: 'm' :: ['h', 'i']) = some c2 ∧
        c2.inserted = [([], formatAtEnd c1.document), (['h', 'i'], QTextCharFormat.default)] :=
  ⟨rfl, hasNoSgr_hi,
    (style_applies_to_following_text [] ['h', 'i'] ['h', 'i'] []).1 rfl hasNoSgr_hi hasNoSgr_hi⟩

/-! ### Style across calls -/

/-- C4, evaluated: the chunk `ESC[1m` arrives in one read and the text `hi` in the next.
The first call sets bold on its own cursor only and inserts no character, so the second
call starts from the document again and inserts `hi` under the default format, not bold. -/
theorem style_not_kept_between_calls :
    ((parseAnsiSequences [] [ESC, '[', '1', 'm']).map
        (fun c1 => (c1.charFormat.fontWeight, c1.document)) = some (FontWeight.bold, [])) ∧
    ((parseAnsiSequences [] [ESC, '[', '1', 'm']).bind
        (fun c1 => (parseAnsiSequences c1.document ['h', 'i']).map (fun c2 => c2.inserted))
      = some [(['h', 'i'], QTextCharFormat.default)]) ∧
    (run latin1Decode utf8Encode TerminalEmulator.init
        [Event.readable (ReadResult.chunk [27, 91, 49, 109]),
         Event.readable (ReadResult.chunk [104, 105])]).map Prod.snd
      = some [Effect.read,
          Effect.insertText [] QTextCharFormat.default,
          Effect.insertText [] ⟨FontWeight.bold, QBrush.noBrush, QBrush.noBrush⟩,
          Effect.read,
          Effect.insertText ['h', 'i'] QTextCharFormat.default] := by
  decide

/-! ### Chunks with a zero byte -/

/-- C1, evaluated: on the chunk `a`, zero byte, `b` the decoded chunk has three characters,
but `readFromMaster` converts the buffer as a C string, which ends at the zero byte, and
inserts `a` alone; the `b` never reaches the display. -/
theorem zero_byte_truncates_chunk :
    latin1Decode [97, 0, 98] = ['a', Char.ofNat 0, 'b'] ∧
    (readFromMaster latin1Decode TerminalEmulator.init (ReadResult.chunk [97, 0, 98])).map Prod.snd
      = some [Effect.read, Effect.insertText ['a'] QTextCharFormat.default] := by
  decide

/-! ### Submitted lines -/

/-- C6, evaluated: under a UTF-8 locale the line `é` with the line terminator encodes to
the three bytes C3 A9 0A, but `sendInput` passes `input.size()`, the number of UTF-16
code units, which is 2: the bytes offered to `write` are C3 A9, without the newline. -/
theorem sendInput_count_is_code_units :
    (utf8Encode ([Char.ofNat 233] ++ ['\n'])).length = 3 ∧
    sendInput utf8Encode ⟨[], [Char.ofNat 233], true⟩ 2
      = (⟨[], [], true⟩, [Effect.write [195, 169, 10] 2]) ∧
    bytesOffered [195, 169, 10] 2 = [195, 169] := by
  decide

/-! ### End of file -/

/-- C9 as stated fails: after a zero-length read has disabled the notifier, a return key
press still runs `sendInput`, which calls `write` on the master descriptor. -/
theorem write_after_eof :
    run latin1Decode utf8Encode TerminalEmulator.init
        [Event.readable ⟨0, []⟩, Event.returnPressed ['l', 's'] 3]
      = some (⟨[], [], false⟩, [Effect.read, Effect.write [108, 115, 10] 3]) := by
  decide

/-- With the notifier disabled, a run of the event loop keeps it disabled, reads nothing,
and writes once per return key press. -/
theorem run_notifier_disabled (dec : List Nat → QString) (enc : QString → List Nat) :
    ∀ (evs : List Event) (s : TerminalEmulator), s.readNotifierEnabled = false →
    ∃ s2 effs, run dec enc s evs = some (s2, effs) ∧ s2.readNotifierEnabled = false ∧
      Effect.read ∉ effs ∧
      (effs.filter Effect.isWrite).length = (evs.filter Event.isReturnPressed).length := by
  intro evs
  induction evs with
  | nil => intro s hs; exact ⟨s, [], rfl, hs, by simp, rfl⟩
  | cons e es ih =>
    intro s hs
    cases e with
    | readable r =>
      obtain ⟨s2, effs, hrun, h2, h3, h4⟩ := ih s hs
      refine ⟨s2, effs, ?_, h2, h3, ?_⟩
      · simp [run, dispatch, hs, hrun]
      · simpa [Event.isReturnPressed] using h4
    | returnPressed line bytesWritten =>
      obtain ⟨s2, effs, hrun, h2, h3, h4⟩ :=
        ih (sendInput enc { s with inputArea := line } bytesWritten).1 hs
      refine ⟨s2, (sendInput enc { s with inputArea := line } bytesWritten).2 ++ effs,
        ?_, h2, ?_, ?_⟩
      · simp [run, dispatch, hrun]
      · by_cases hb : bytesWritten = -1 <;> simp [sendInput, hb, h3]
      · by_cases hb : bytesWritten = -1 <;>
          simp [sendInput, hb, h4, Effect.isWrite, Event.isReturnPressed, List.filter_cons]

/-- C9, amended: once `readFromMaster` observes a zero-length read it disables the read
notifier, and over every later run of the event loop the notifier stays disabled and no
further `read` on the master descriptor is made; `sendInput` is not gated, every return
key press still makes one `write` call. -/
theorem eof_stops_reads (dec : List Nat → QString) (enc : QString → List Nat)
    (self : TerminalEmulator) (r : ReadResult) (evs : List Event) (h : r.count = 0) :
    ∃ s1, readFromMaster dec self r = some (s1, [Effect.read]) ∧
      s1.readNotifierEnabled = false ∧
      ∃ s2 effs, run dec enc s1 evs = some (s2, effs) ∧ s2.readNotifierEnabled = false ∧
        Effect.read ∉ effs ∧
        (effs.filter Effect.isWrite).length = (evs.filter Event.isReturnPressed).length := by
  refine ⟨{ self with readNotifierEnabled := false }, ?_, rfl, ?_⟩
  · simp [readFromMaster, h]
  · exact run_notifier_disabled dec enc evs _ rfl

/-- Witness of C9: end of file, then the descriptor signalled readable once more and one
submitted line. -/
theorem eof_stops_reads_witness :
    (⟨0, []⟩ : ReadResult).count = 0 ∧
    ∃ s1, readFromMaster latin1Decode TerminalEmulator.init ⟨0, []⟩ = some (s1, [Effect.read]) ∧
      s1.readNotifierEnabled = false ∧
      ∃ s2 effs, run latin1Decode utf8Encode s1
          [Event.readable (ReadResult.chunk [104, 105]), Event.returnPressed ['l', 's'] 3]
            = some (s2, effs) ∧ s2.readNotifierEnabled = false ∧
        Effect.read ∉ effs ∧
        (effs.filter Effect.isWrite).length
          = ([Event.readable (ReadResult.chunk [104, 105]),
              Event.returnPressed ['l', 's'] 3].filter Event.isReturnPressed).length :=
  ⟨rfl, eof_stops_reads latin1Decode utf8Encode TerminalEmulator.init ⟨0, []⟩
    [Event.readable (ReadResult.chunk [104, 105]), Event.returnPressed ['l', 's'] 3] rfl⟩

/-! ### The clear-screen sequence -/

/-- A chunk without zero byte is the whole C string of the buffer. -/
theorem cString_append_zero (bytes : List Nat) (h : 0 ∉ bytes) :
    cString (bytes ++ [0]) = bytes := by
  unfold cString
  rw [List.takeWhile_append_of_pos (fun a ha => by
    have : a ≠ 0 := fun e => h (e ▸ ha)
    simp [this])]
  simp

/-- The test `QString::contains` is the infix relation. -/
theorem contains_iff_occurs (pat : QString) : ∀ s : QString,
    QString.contains s pat = true ↔ pat <:+: s := by
  intro s
  induction s with
  | nil =>
    simp [QString.contains, List.isEmpty_iff]
  | cons c cs ih =>
    rw [QString.contains, Bool.or_eq_true, List.isPrefixOf_iff_prefix, ih, List.infix_cons_iff]

/-- Every span of the specification is a piece of the text. -/
theorem styled_span_within {s : QTextCharFormat} {t : QString}
    {spans : List (QString × QTextCharFormat)} (h : Styled s t spans) :
    ∀ p ∈ spans, p.1 <:+: t := by
  induction h with
  | last s t _ =>
    intro p hp
    simp only [List.mem_singleton] at hp
    subst hp
    exact List.infix_refl _
  | next s a ds m rest spans _ _ _ ih =>
    intro p hp
    rcases List.mem_cons.mp hp with hp | hp
    · subst hp
      exact ⟨[], m ++ rest, by simp⟩
    · exact (ih p hp).trans ⟨a ++ m, [], by simp⟩

/-- The handler `readFromMaster` returns on every result of `read`. -/
theorem readFromMaster_returns (dec : List Nat → QString) (self : TerminalEmulator)
    (r : ReadResult) : ∃ res, readFromMaster dec self r = some res := by
  unfold readFromMaster
  by_cases h1 : r.count > 0
  · simp only [if_pos h1]
    obtain ⟨c, hc, _⟩ := parseAnsiSequences_styled
      (if QString.contains (dec (cString (r.bytes.take r.count.toNat ++ [0]))) clearSeq = true
        then [] else self.outputArea)
      (if QString.contains (dec (cString (r.bytes.take r.count.toNat ++ [0]))) clearSeq = true
        then removeClearSeq (dec (cString (r.bytes.take r.count.toNat ++ [0])))
        else dec (cString (r.bytes.take r.count.toNat ++ [0])))
    rw [hc]
    exact ⟨_, rfl⟩
  · rw [if_neg h1]
    by_cases h2 : r.count = 0
    · rw [if_pos h2]
      exact ⟨_, rfl⟩
    · rw [if_neg h2]
      exact ⟨_, rfl⟩

/-- On a chunk without zero byte no character is lost: the inserted spans, concatenated,
are the decoded chunk, after the removal pass for the clear sequence when the chunk
contains it, with the escape sequences removed. -/
theorem readFromMaster_keeps_text (dec : List Nat → QString) (self : TerminalEmulator)
    (bytes : List Nat) (hne : bytes ≠ []) (hzero : 0 ∉ bytes) :
    ∃ self2 spans, readFromMaster dec self (ReadResult.chunk bytes)
        = some (self2, [Effect.read]
            ++ (if QString.contains (dec bytes) clearSeq = true then [Effect.clear] else [])
            ++ insertEffects spans) ∧
      SgrRemoved
        (if QString.contains (dec bytes) clearSeq = true then removeClearSeq (dec bytes)
          else dec bytes)
        (spanText spans) := by
  obtain ⟨c, hc, hst⟩ := parseAnsiSequences_styled
    (if QString.contains (dec bytes) clearSeq = true then [] else self.outputArea)
    (if QString.contains (dec bytes) clearSeq = true then removeClearSeq (dec bytes)
      else dec bytes)
  refine ⟨{ self with outputArea := c.document }, c.inserted, ?_, sgrRemoved_of_styled hst⟩
  have hpos : (ReadResult.chunk bytes).count > 0 := by
    have : 0 < bytes.length := List.length_pos.mpr hne
    simp only [ReadResult.chunk]
    omega
  have htake : (ReadResult.chunk bytes).bytes.take (ReadResult.chunk bytes).count.toNat
      = bytes := by
    simp [ReadResult.chunk]
  simp only [readFromMaster, if_pos hpos, htake, cString_append_zero bytes hzero, hc]

/-- C5 as stated fails: in the chunk `ESC[H ESC[H ESC[2J ESC[2J` the one occurrence of the
clear sequence is removed, the bytes around it join to a new one, and the span inserted
for the chunk is that clear sequence. -/
theorem clear_sequence_left_in_span :
    latin1Decode [27, 91, 72, 27, 91, 72, 27, 91, 50, 74, 27, 91, 50, 74]
      = [ESC, '[', 'H'] ++ clearSeq ++ [ESC, '[', '2', 'J'] ∧
    (readFromMaster latin1Decode TerminalEmulator.init
        (ReadResult.chunk [27, 91, 72, 27, 91, 72, 27, 91, 50, 74, 27, 91, 50, 74])).map Prod.snd
      = some [Effect.read, Effect.clear, Effect.insertText clearSeq QTextCharFormat.default] ∧
    QString.contains clearSeq clearSeq = true := by
  decide

/-- C5, amended: for every chunk without a zero byte whose decoded text contains the
sequence `ESC [ H ESC [ 2 J`, `readFromMaster` clears the display and then inserts the
spans of the text left after one left-to-right removal pass over the occurrences of the
sequence; when that text holds no occurrence any more (none is formed by the characters
around a removed one), no inserted span contains the sequence.  For the chunk
`ESC[H ESC[2J` followed by `ok` the effects are the read, a clear and the span `ok`. -/
theorem clear_then_spans (dec : List Nat → QString) (self : TerminalEmulator)
    (bytes : List Nat) (hne : bytes ≠ []) (hzero : 0 ∉ bytes)
    (hclear : QString.contains (dec bytes) clearSeq = true) :
    (∃ self2 spans, readFromMaster dec self (ReadResult.chunk bytes)
        = some (self2, Effect.read :: Effect.clear :: insertEffects spans) ∧
      SgrRemoved (removeClearSeq (dec bytes)) (spanText spans) ∧
      (QString.contains (removeClearSeq (dec bytes)) clearSeq = false →
        ∀ p ∈ spans, QString.contains p.1 clearSeq = false)) ∧
    (readFromMaster latin1Decode self (ReadResult.chunk [27, 91, 72, 27, 91, 50, 74, 111, 107])).map
        Prod.snd
      = some [Effect.read, Effect.clear, Effect.insertText ['o', 'k'] QTextCharFormat.default] := by
  refine ⟨?_, rfl⟩
  obtain ⟨c, hc, hst⟩ := parseAnsiSequences_styled [] (removeClearSeq (dec bytes))
  refine ⟨{ self with outputArea := c.document }, c.inserted, ?_, sgrRemoved_of_styled hst, ?_⟩
  · have hpos : (ReadResult.chunk bytes).count > 0 := by
      have : 0 < bytes.length := List.length_pos.mpr hne
      simp only [ReadResult.chunk]
      omega
    have htake : (ReadResult.chunk bytes).bytes.take (ReadResult.chunk bytes).count.toNat = bytes := by
      simp [ReadResult.chunk]
    simp only [readFromMaster, if_pos hpos, htake, cString_append_zero bytes hzero, hclear,
      if_true, hc]
    rfl
  · intro hno p hp
    cases hcp : QString.contains p.1 clearSeq with
    | false => rfl
    | true =>
      have h1 := (contains_iff_occurs clearSeq p.1).mp hcp
      have h2 := (contains_iff_occurs clearSeq _).mpr (h1.trans (styled_span_within hst p hp))
      rw [hno] at h2
      exact absurd h2 (by simp)

/-- Witness of C5 on the chunk `ESC[H ESC[2J` followed by `ok`, from the initial state. -/
theorem clear_then_spans_witness :
    [27, 91, 72, 27, 91, 50, 74, 111, 107] ≠ ([] : List Nat) ∧
    0 ∉ [27, 91, 72, 27, 91, 50, 74, 111, 107] ∧
    QString.contains (latin1Decode [27, 91, 72, 27, 91, 50, 74, 111, 107]) clearSeq = true ∧
    (∃ self2 spans, readFromMaster latin1Decode TerminalEmulator.init
          (ReadResult.chunk [27, 91, 72, 27, 91, 50, 74, 111, 107])
        = some (self2, Effect.read :: Effect.clear :: insertEffects spans) ∧
      SgrRemoved (removeClearSeq (latin1Decode [27, 91, 72, 27, 91, 50, 74, 111, 107]))
        (spanText spans) ∧
      (QString.contains (removeClearSeq (latin1Decode [27, 91, 72, 27, 91, 50, 74, 111, 107]))
          clearSeq = false →
        ∀ p ∈ spans, QString.contains p.1 clearSeq = false)) ∧
    (readFromMaster latin1Decode TerminalEmulator.init
        (ReadResult.chunk [27, 91, 72, 27, 91, 50, 74, 111, 107])).map Prod.snd
      = some [Effect.read, Effect.clear, Effect.insertText ['o', 'k'] QTextCharFormat.default] :=
  ⟨by decide, by decide, by decide,
    clear_then_spans latin1Decode TerminalEmulator.init [27, 91, 72, 27, 91, 50, 74, 111, 107]
      (by decide) (by decide) (by decide)⟩

end TermEmulator
